import Mathlib

/-!
Verification development for the GatorGuide map engine.

The definitions below are a shallow embedding of the Rust sources:
  * `src/map_renderer.rs` — projection helper `world_x_to_pixel_x`, the graticule
    spacing function `line_distance_for_viewport_degrees`, the fallback compositor
    `render_tile_set`, and the pipeline selection in `draw`;
  * `src/lib.rs` — the mouse-wheel zoom handling in `run_app` and `MAX_ZOOM_LEVEL`.

Rust `f64` arithmetic is embedded as exact arithmetic: ℚ where only field operations
occur, ℝ where `log10` is involved.  Machine integers (`u32`, `usize`) are embedded
as ℕ (no arithmetic here comes near overflow).  A Rust `panic!`/`unwrap` failure is
embedded as `Option.none`.

The crate modules `map`, `tile` and `util` are declared in `lib.rs` but their files
are not among the provided sources; the few facts needed about them (`util::map`,
`TileView::multiply_zoom`, `TilePipeline::tile_size`/`get_tile`) are modelled from
the specification and are marked as such in their doc comments.
-/

namespace GatorGuide

/-- MAX_ZOOM_LEVEL from lib.rs line 34. -/
def MAX_ZOOM_LEVEL : ℕ := 20

/-- Tile address (x, y, zoom) as used by `TileId::new(tile_x, tile_y, zoom)`. -/
structure TileId where
  x : ℕ
  y : ℕ
  zoom : ℕ
deriving DecidableEq

def TileId.new (x y zoom : ℕ) : TileId := ⟨x, y, zoom⟩

/-- The set of tiles in Ready state for one pipeline, listed explicitly. -/
abbrev Cache := List TileId

/-- Modelled from the spec: `TilePipeline::get_tile` (module `tile` is absent from the
provided sources).  §4.2: "O(1) lookup; returns `Some` only for entries in state Ready;
pure read, no side effects".  We record only whether the lookup succeeds. -/
def getTile (cache : Cache) (id : TileId) : Bool := cache.contains id

/-- Modelled from the spec: `TilePipeline::tile_size` (module `tile` is absent from the
provided sources).  §4.2: "native tile pixel dimensions once at least one tile has ever
been fetched; `None` beforehand".  `fetched` lists the native sizes of all tiles ever
fetched, most recent first. -/
def tile_size (fetched : List (ℚ × ℚ)) : Option (ℚ × ℚ) := fetched.head?

/-- One element of `RenderLayer::tiles`, the Rust tuple `(x, y, tile_x, tile_y)`:
screen centre position and tile coordinate. -/
structure TileEntry where
  px : ℚ
  py : ℚ
  tx : ℕ
  ty : ℕ
deriving DecidableEq

/-- `RenderLayer` from map_renderer.rs lines 252-266. -/
structure RenderLayer where
  size : ℚ × ℚ
  zoom_level : ℕ
  tiles : List TileEntry
deriving DecidableEq

def RenderLayer.new (size : ℚ × ℚ) (zoom_level : ℕ) : RenderLayer :=
  ⟨size, zoom_level, []⟩

/-- The else-branch of the fallback loop body (map_renderer.rs lines 192-203): replace a
missing tile by its ancestor at the next coarser zoom, shifted by the quadrant
`(tile_x % 2, tile_y % 2)` the child occupies. -/
def parentEntry (size : ℚ × ℚ) (e : TileEntry) : TileEntry :=
  { px := e.px - (e.tx % 2 : ℕ) * size.1 + size.1 / 2
    py := e.py + (e.ty % 2 : ℕ) * size.2 - size.2 / 2
    tx := e.tx / 2
    ty := e.ty / 2 }

/-- One iteration of the fallback loop body (map_renderer.rs lines 182-205): partition
`missing.tiles` in order into the tiles found in the cache at `missing.zoom_level`
(pushed onto `newest_layer`) and, for the rest, their parent entries (pushed onto
`new_missing`, whose displayed size doubles and zoom decreases by one). -/
def layerStep (cache : Cache) (size : ℚ × ℚ) (zoom_level : ℕ) (missing : RenderLayer) :
    RenderLayer × RenderLayer :=
  ({ size := size
     zoom_level := zoom_level
     tiles := missing.tiles.filter fun e => getTile cache (TileId.new e.tx e.ty missing.zoom_level) },
   { size := (2 * size.1, 2 * size.2)
     zoom_level := zoom_level - 1
     tiles := (missing.tiles.filter fun e =>
        ! getTile cache (TileId.new e.tx e.ty missing.zoom_level)).map (parentEntry size) })

/-- The while loop of map_renderer.rs lines 181-213:
`while !missing.tiles.is_empty() && zoom_level > 0`.  `zoom_level` strictly decreases,
so it serves as the recursion fuel; the returned list is `draw_layers` in push order
(finest zoom first).  Note the loop exits as soon as `zoom_level` reaches 0, leaving
the final `missing` set (the zoom-0 candidates) unexamined. -/
def fallbackLoop (cache : Cache) : ℕ → RenderLayer → ℚ × ℚ → List RenderLayer
  | 0, _, _ => []
  | zoom_level + 1, missing, size =>
    if missing.tiles.isEmpty then []
    else
      let step := layerStep cache size (zoom_level + 1) missing
      step.1 :: fallbackLoop cache zoom_level step.2 (2 * size.1, 2 * size.2)

/-- The initial missing set (map_renderer.rs lines 166-179): every requested tile,
placed column-major (`tile_x = i / tiles_vertically`, `tile_y = i % tiles_vertically`)
at its screen centre. -/
def initialLayer (tiles : List (ℕ × ℕ)) (tilesVertically : ℕ) (offset size : ℚ × ℚ)
    (winW winH : ℚ) (zoom : ℕ) : RenderLayer :=
  { size := size
    zoom_level := zoom
    tiles := tiles.enum.map fun it =>
      { px := offset.1 + (it.1 / tilesVertically : ℕ) * size.1 - winW / 2 + size.1 / 2
        py := offset.2 - (it.1 % tilesVertically : ℕ) * size.2 + winH / 2 + size.2 / 2
        tx := it.2.1
        ty := it.2.2 } }

/-- `render_tile_set` (map_renderer.rs lines 136-250), up to the point where the layers
are handed to the widget library.  `tileSizeNative` is `pipeline.tile_size()`, which the
function unwraps on entry (line 142): `none` makes the whole call panic, embedded as
`Option.none`.  `tiles`, `tilesVertically`, `offset`, `size` and `tileZoom` stand for
the fields of the `view.tile_iter(..)` result.  The returned list is `draw_layers`
after the `reverse()` on line 227, i.e. the order in which layers are drawn. -/
def render_tile_set (cache : Cache) (tileSizeNative : Option (ℚ × ℚ))
    (tiles : List (ℕ × ℕ)) (tilesVertically : ℕ) (offset size : ℚ × ℚ)
    (winW winH : ℚ) (tileZoom : ℕ) : Option (List RenderLayer) :=
  match tileSizeNative with
  | none => none
  | some _ =>
    some ((fallbackLoop cache tileZoom
      (initialLayer tiles tilesVertically offset size winW winH tileZoom) size).reverse)

/-- The final drawing pass (map_renderer.rs lines 231-247): layers are traversed in
order, and an entry is drawn only if `get_tile` still returns `Some` for it. -/
def drawnLayers (cache : Cache) (layers : List RenderLayer) : List RenderLayer :=
  layers.map fun L =>
    { L with tiles := L.tiles.filter fun e => getTile cache (TileId.new e.tx e.ty L.zoom_level) }

/-- The closed axis-aligned screen rectangle of a tile drawn with centre `(cx, cy)`
and drawn size `size` (conrod's `.x_y(x, y).w_h(size.x, size.y)`), as a predicate on
screen points. -/
def inRect (size : ℚ × ℚ) (cx cy : ℚ) (p : ℚ × ℚ) : Prop :=
  cx - size.1 / 2 ≤ p.1 ∧ p.1 ≤ cx + size.1 / 2 ∧
  cy - size.2 / 2 ≤ p.2 ∧ p.2 ≤ cy + size.2 / 2

instance (size : ℚ × ℚ) (cx cy : ℚ) (p : ℚ × ℚ) : Decidable (inRect size cx cy p) := by
  unfold inRect; infer_instance

/-- Modelled from the spec: `util::map` (module `util` is absent from the provided
sources).  §4.1 `world_to_pixel` calls it for the "linear remap from the viewport's
extent on that axis to a centered ... pixel coordinate system". -/
def mapRange (fromMin fromMax v toMin toMax : ℚ) : ℚ :=
  (v - fromMin) / (fromMax - fromMin) * (toMax - toMin) + toMin

/-- `WorldViewport` as used by map_renderer.rs: top-left and bottom-right world
coordinates (§3 Viewport). -/
structure WorldViewport where
  top_left : ℚ × ℚ
  bottom_right : ℚ × ℚ

/-- `world_x_to_pixel_x` (map_renderer.rs lines 11-24). -/
def world_x_to_pixel_x (world_x : ℚ) (viewport : WorldViewport) (window_width : ℚ) : ℚ :=
  mapRange viewport.top_left.1 viewport.bottom_right.1 world_x
    (-(window_width / 2)) (window_width / 2)

/-- Modelled from the spec: `TileView::multiply_zoom` (module `map` is absent from the
provided sources).  §4.1: "applies a multiplicative zoom change. ... Zoom is clamped to
[0, MAX_ZOOM]." -/
def multiply_zoom (zoom factor : ℚ) : ℚ :=
  min (max (zoom * factor) 0) (MAX_ZOOM_LEVEL : ℚ)

/-- The `MouseWheel` arm of `run_app` (lib.rs lines 159-166): the raw delta is scaled
by `-1/6` and clamped to `[-0.5, 0.5]` (Rust `clamp(-0.5, 0.5)` is a max with the lower
bound followed by a min with the upper bound). -/
def wheel_zoom_change (raw : ℚ) : ℚ := min (max (-raw / 6) (-(1 / 2))) (1 / 2)

/-- `viewer.multiply_zoom(1.0 + zoom_change)` from lib.rs line 165. -/
def wheel_event_zoom (zoom raw : ℚ) : ℚ := multiply_zoom zoom (1 + wheel_zoom_change raw)

/-- The pipeline selection and per-frame calls of `draw` (map_renderer.rs lines
109-129): `pipelines` is `tile_cache.values_mut()` in iteration order; each of the two
`next().unwrap()` calls panics (embedded as `none`) unless the iterator yields another
pipeline.  The first pipeline becomes `satellite`, the second `weather`; the returned
list gives the pipelines passed to `update` and `render_tile_set`, in call order —
`weather` only when `weather_enabled` is set. -/
def drawPipelineCalls (pipelines : List α) (weather_enabled : Bool) : Option (List α) :=
  match pipelines with
  | satellite :: weather :: _ =>
    some (if weather_enabled then [satellite, weather] else [satellite])
  | _ => none

/-- The screen-adjusted degree range of map_renderer.rs lines 47-50:
`range_degrees = world_range * 180.0; mapped_range = range_degrees * 500.0 /
dimension_size`. -/
noncomputable def mappedRange (world_range dimension_size : ℝ) : ℝ :=
  world_range * 180 * 500 / dimension_size

/-- The logarithmic fallback of map_renderer.rs lines 62-75: `power =
(mapped_range / 2).log10()`, `part = power.rem_euclid(1.0)` (that is `Int.fract`),
`int_power = power.ceil()`, and the returned spacing is `0.5`, `0.2` or `0.1` times
`10^int_power` according to `part ≥ 0.5`, `part ≥ 0.2`, or neither. -/
noncomputable def logFallback (mapped_range : ℝ) : ℝ :=
  let power := Real.logb 10 (mapped_range / 2)
  if Int.fract power ≥ 0.5 then 0.5 * 10 ^ ⌈power⌉
  else if Int.fract power ≥ 0.2 then 0.2 * 10 ^ ⌈power⌉
  else 0.1 * 10 ^ ⌈power⌉

/-- `line_distance_for_viewport_degrees` (map_renderer.rs lines 45-76).  The Rust
`for` loop over `mapping = [45.0, 15.0, 5.0, 2.0, 1.0]` with `DISTANCE_SCALE = 2.0`
returns on the first `distance` with `mapped_range > distance * 2.0`; it is unrolled
into the equivalent five-way if-chain. -/
noncomputable def line_distance_for_viewport_degrees (world_range dimension_size : ℝ) : ℝ :=
  let mapped_range := mappedRange world_range dimension_size
  if mapped_range > 45 * 2 then 45
  else if mapped_range > 15 * 2 then 15
  else if mapped_range > 5 * 2 then 5
  else if mapped_range > 2 * 2 then 2
  else if mapped_range > 1 * 2 then 1
  else logFallback mapped_range

/-- The first element `d` of a list with `mapped_range > d * 2`, following the wording
of spec §4.4 ("return the first value `d` such that `mapped_range > d * 2.0`"). -/
noncomputable def firstSpacing (mapped_range : ℝ) : List ℝ → Option ℝ
  | [] => none
  | d :: rest => if mapped_range > d * 2 then some d else firstSpacing mapped_range rest

/-- The graticule spacing as the spec's words describe it (§4.4, claim C4), written
independently of the source embedding: `mapped_range` is the degree range
(`range * 180`) scaled by `500 / axis_px`; first try the ordered set
`{45, 15, 5, 2, 1}`; if none matches, fall back to the logarithmic scale with
`power = log10(mapped_range / 2)`, non-negative fractional part `fractional`,
`exp = ceil(power)`, returning `0.5`, `0.2` or `0.1` times `10^exp` according to
`fractional ≥ 0.5`, `fractional ≥ 0.2`, or smaller. -/
noncomputable def lineDistanceSpec (range_degrees_equivalent axis_px : ℝ) : ℝ :=
  let mapped_range := range_degrees_equivalent * 180 * (500 / axis_px)
  match firstSpacing mapped_range [45, 15, 5, 2, 1] with
  | some d => d
  | none =>
    let power := Real.logb 10 (mapped_range / 2)
    let fractional := Int.fract power
    let exp := ⌈power⌉
    if fractional ≥ 0.5 then 0.5 * 10 ^ exp
    else if fractional ≥ 0.2 then 0.2 * 10 ^ exp
    else 0.1 * 10 ^ exp

/-! ## Theorems -/

theorem parentEntry_rect {size : ℚ × ℚ} {e : TileEntry} (hx : 0 ≤ size.1) (hy : 0 ≤ size.2)
    {p : ℚ × ℚ} (hp : inRect size e.px e.py p) :
    inRect (2 * size.1, 2 * size.2) (parentEntry size e).px (parentEntry size e).py p := by
  rcases Nat.mod_two_eq_zero_or_one e.tx with hx2 | hx2 <;>
    rcases Nat.mod_two_eq_zero_or_one e.ty with hy2 | hy2 <;>
      · obtain ⟨a, b, c, d⟩ := hp
        simp only [inRect, parentEntry, hx2, hy2, Nat.cast_zero, Nat.cast_one]
        refine ⟨by linarith, by linarith, by linarith, by linarith⟩

/-- Claim C1 (code bug evidence): at target zoom 1 with requested tile set {(0,0)} and a
cache holding only the zoom-0 root tile, `render_tile_set` emits a single layer, at
zoom 1, with an empty tile list — no non-empty layer at all and nothing at zoom 0 —
because the fallback loop stops at `zoom_level > 0` and throws the zoom-0 candidate
entries away.  The claim says exactly one non-empty zoom-0 layer covering the whole
requested footprint is emitted. -/
theorem root_only_cache_draws_nothing :
    render_tile_set [TileId.new 0 0 0] (some (256, 256)) [(0, 0)] 1 (0, 0) (1, 1) 2 2 1 =
      some [⟨(1, 1), 1, []⟩] := by
  simp only [render_tile_set, fallbackLoop, layerStep, initialLayer, parentEntry, getTile,
    TileId.new, List.enum, List.filter, List.map, List.isEmpty, List.contains, List.reverse]
  norm_num

/-- Claim C3 (code bug evidence): a pipeline that has never fetched a tile has
`tile_size() = None`, and `render_tile_set` called on it panics (embedded as `none`)
at the `pipeline.tile_size().unwrap()` on map_renderer.rs line 142, instead of
tolerating the `None` as "nothing to draw yet" as the claim (and the stale comment at
map_renderer.rs lines 99-100) state. -/
theorem render_tile_set_panics_on_no_tile_size :
    tile_size [] = none ∧
    render_tile_set [] (tile_size []) [(0, 0)] 1 (0, 0) (1, 1) 2 2 1 = none := ⟨rfl, rfl⟩

/-- Claim C2 counterexample: at target zoom 2 with the four children of tile (0,0,1)
requested and exactly that parent tile cached, the emitted zoom-1 layer contains the
same entry — tile (0,0) at screen centre (0,1) — four times, so its tile list is not
duplicate-free: a screen cell is drawn four times at the same resolution, refuting the
claim's "no tile appears twice in the same layer at the same position". -/
theorem fallback_duplicates_ancestor :
    render_tile_set [TileId.new 0 0 1] (some (256, 256)) [(0, 0), (0, 1), (1, 0), (1, 1)] 2
        (0, 0) (1, 1) 2 2 2 =
      some [⟨(2, 2), 1, [⟨0, 1, 0, 0⟩, ⟨0, 1, 0, 0⟩, ⟨0, 1, 0, 0⟩, ⟨0, 1, 0, 0⟩]⟩,
            ⟨(1, 1), 2, []⟩] ∧
    ¬ (RenderLayer.tiles
        ⟨(2, 2), 1, [⟨0, 1, 0, 0⟩, ⟨0, 1, 0, 0⟩, ⟨0, 1, 0, 0⟩, ⟨0, 1, 0, 0⟩]⟩).Nodup := by
  constructor
  · simp only [render_tile_set, fallbackLoop, layerStep, initialLayer, parentEntry, getTile,
      TileId.new, List.enum, List.filter, List.map, List.isEmpty, List.contains, List.reverse]
    norm_num
  · decide

/-- Claim C9: for every viewport with distinct left and right world x bounds and every
window width, `world_x_to_pixel_x` maps the viewport's own top-left.x exactly to
`-window_width/2` and its bottom-right.x exactly to `+window_width/2` (linear remap of
the viewport extent onto a centred pixel axis). -/
theorem world_x_to_pixel_x_maps_viewport_edges (viewport : WorldViewport) (window_width : ℚ)
    (h : viewport.top_left.1 ≠ viewport.bottom_right.1) :
    world_x_to_pixel_x viewport.top_left.1 viewport window_width = -(window_width / 2) ∧
    world_x_to_pixel_x viewport.bottom_right.1 viewport window_width = window_width / 2 := by
  have hne : viewport.bottom_right.1 - viewport.top_left.1 ≠ 0 := sub_ne_zero.mpr (Ne.symm h)
  constructor
  · simp [world_x_to_pixel_x, mapRange]
  · unfold world_x_to_pixel_x mapRange
    rw [div_self hne]
    ring

theorem world_x_to_pixel_x_witness :
    ((⟨(0, 0), (1, 1)⟩ : WorldViewport)).top_left.1 ≠
        ((⟨(0, 0), (1, 1)⟩ : WorldViewport)).bottom_right.1 ∧
    world_x_to_pixel_x ((⟨(0, 0), (1, 1)⟩ : WorldViewport)).top_left.1 ⟨(0, 0), (1, 1)⟩ 720 =
      -(720 / 2) ∧
    world_x_to_pixel_x ((⟨(0, 0), (1, 1)⟩ : WorldViewport)).bottom_right.1 ⟨(0, 0), (1, 1)⟩ 720 =
      720 / 2 :=
  ⟨by norm_num, world_x_to_pixel_x_maps_viewport_edges ⟨(0, 0), (1, 1)⟩ 720 (by norm_num)⟩

/-- Claim C10: `draw` takes the first pipeline of the map's iteration order as the
satellite layer and the second as the weather layer (the returned call list is
`[satellite, weather]` when weather is enabled and `[satellite]` otherwise), and the
two `next().unwrap()` calls panic (result `none`) exactly when the pipeline map has
fewer than two entries. -/
theorem draw_needs_two_pipelines (l : List ℕ) (w : Bool) :
    ((drawPipelineCalls l w).isSome ↔ 2 ≤ l.length) ∧
    (∀ s wp r, l = s :: wp :: r →
      drawPipelineCalls l w = some (if w then [s, wp] else [s])) := by
  constructor
  · match l with
    | [] => simp [drawPipelineCalls]
    | [a] => simp [drawPipelineCalls]
    | a :: b :: t => simp [drawPipelineCalls]
  · rintro s wp r rfl
    rfl

theorem draw_needs_two_pipelines_witness :
    ((drawPipelineCalls [5, 7] true).isSome ↔ 2 ≤ ([5, 7] : List ℕ).length) ∧
    drawPipelineCalls [5, 7] true = some [5, 7] :=
  ⟨(draw_needs_two_pipelines [5, 7] true).1,
   by simpa using (draw_needs_two_pipelines [5, 7] true).2 5 7 [] rfl⟩

/-- Claim C8: for every mouse-wheel event, whatever the raw scroll delta (`raw` covers
both the LineDelta value and the PixelDelta value already divided by 100), the
requested zoom change is clamped to [-0.5, 0.5], so `multiply_zoom` receives a factor
in [0.5, 1.5]; for any current zoom in [0, MAX_ZOOM_LEVEL] the resulting zoom stays in
[0, MAX_ZOOM_LEVEL] and changes at most by the equivalent of a 0.5 step — it stays
between half and one-and-a-half times the current zoom. -/
theorem wheel_zoom_clamped (zoom raw : ℚ) (h0 : 0 ≤ zoom) (h1 : zoom ≤ MAX_ZOOM_LEVEL) :
    -(1 / 2) ≤ wheel_zoom_change raw ∧ wheel_zoom_change raw ≤ 1 / 2 ∧
    1 / 2 ≤ 1 + wheel_zoom_change raw ∧ 1 + wheel_zoom_change raw ≤ 3 / 2 ∧
    0 ≤ wheel_event_zoom zoom raw ∧ wheel_event_zoom zoom raw ≤ MAX_ZOOM_LEVEL ∧
    zoom / 2 ≤ wheel_event_zoom zoom raw ∧ wheel_event_zoom zoom raw ≤ 3 * zoom / 2 := by
  have hM : (MAX_ZOOM_LEVEL : ℚ) = 20 := by norm_num [MAX_ZOOM_LEVEL]
  rw [hM] at h1 ⊢
  have hcl : -(1 / 2) ≤ wheel_zoom_change raw :=
    le_min (le_max_right _ _) (by norm_num)
  have hcu : wheel_zoom_change raw ≤ 1 / 2 := min_le_right _ _
  set c := wheel_zoom_change raw with hc
  have hy0 : 0 ≤ zoom * (1 + c) := by nlinarith
  refine ⟨hcl, hcu, by linarith, by linarith, ?_, ?_, ?_, ?_⟩
  · exact le_min (le_max_right _ _) (by norm_num)
  · exact min_le_right _ _
  · exact le_min (le_trans (by nlinarith) (le_max_left _ _)) (by linarith)
  · unfold wheel_event_zoom multiply_zoom
    rw [hM, max_eq_left hy0]
    exact le_trans (min_le_left _ _) (by nlinarith)

theorem wheel_zoom_clamped_witness :
    (0 : ℚ) ≤ 13 ∧ (13 : ℚ) ≤ MAX_ZOOM_LEVEL ∧
    (0 ≤ wheel_event_zoom 13 (-100) ∧ wheel_event_zoom 13 (-100) ≤ MAX_ZOOM_LEVEL ∧
     13 / 2 ≤ wheel_event_zoom 13 (-100) ∧ wheel_event_zoom 13 (-100) ≤ 3 * 13 / 2) :=
  ⟨by norm_num, by norm_num [MAX_ZOOM_LEVEL],
   ⟨(wheel_zoom_clamped 13 (-100) (by norm_num) (by norm_num [MAX_ZOOM_LEVEL])).2.2.2.2.1,
    (wheel_zoom_clamped 13 (-100) (by norm_num) (by norm_num [MAX_ZOOM_LEVEL])).2.2.2.2.2.1,
    (wheel_zoom_clamped 13 (-100) (by norm_num) (by norm_num [MAX_ZOOM_LEVEL])).2.2.2.2.2.2.1,
    (wheel_zoom_clamped 13 (-100) (by norm_num) (by norm_num [MAX_ZOOM_LEVEL])).2.2.2.2.2.2.2⟩⟩



theorem fallbackLoop_zoom_le (cache : Cache) :
    ∀ (z : ℕ) (missing : RenderLayer) (size : ℚ × ℚ),
      ∀ L ∈ fallbackLoop cache z missing size, L.zoom_level ≤ z := by
  intro z
  induction z with
  | zero => intro missing size L hL; simp [fallbackLoop] at hL
  | succ n ih =>
    intro missing size L hL
    rw [fallbackLoop] at hL
    by_cases hE : missing.tiles.isEmpty
    · simp [hE] at hL
    · simp only [hE, if_neg, Bool.false_eq_true, not_false_eq_true, List.mem_cons] at hL
      rcases hL with rfl | hL
      · exact le_refl _
      · exact le_trans (ih _ _ L hL) (Nat.le_succ n)

theorem fallbackLoop_zoom_strict_desc (cache : Cache) :
    ∀ (z : ℕ) (missing : RenderLayer) (size : ℚ × ℚ),
      (fallbackLoop cache z missing size).Pairwise
        (fun a b => b.zoom_level < a.zoom_level) := by
  intro z
  induction z with
  | zero => intro missing size; simp [fallbackLoop]
  | succ n ih =>
    intro missing size
    rw [fallbackLoop]
    by_cases hE : missing.tiles.isEmpty
    · simp [hE]
    · simp only [hE, if_neg, Bool.false_eq_true, not_false_eq_true]
      refine List.Pairwise.cons ?_ (ih _ _)
      intro b hb
      have hble := fallbackLoop_zoom_le cache n _ _ b hb
      show b.zoom_level < (layerStep cache size (n + 1) missing).1.zoom_level
      simp only [layerStep]
      omega

/-- Claim C7: the layer list returned by `render_tile_set` (and hence the final drawing
pass over it) is ordered by strictly increasing zoom level — coarsest first, finest
last — so every tile of a coarser layer is drawn before every tile of a finer one. -/
theorem draw_layers_coarsest_first (cache : Cache) (ts : ℚ × ℚ) (tiles : List (ℕ × ℕ))
    (tilesVertically : ℕ) (offset size : ℚ × ℚ) (winW winH : ℚ) (tileZoom : ℕ)
    (layers : List RenderLayer)
    (hrender : render_tile_set cache (some ts) tiles tilesVertically offset size winW winH
        tileZoom = some layers) :
    layers.Pairwise (fun a b => a.zoom_level < b.zoom_level) ∧
    (drawnLayers cache layers).Pairwise (fun a b => a.zoom_level < b.zoom_level) := by
  have hl : layers = (fallbackLoop cache tileZoom
      (initialLayer tiles tilesVertically offset size winW winH tileZoom) size).reverse := by
    simpa [render_tile_set] using hrender.symm
  subst hl
  have h1 : ((fallbackLoop cache tileZoom
      (initialLayer tiles tilesVertically offset size winW winH tileZoom) size).reverse).Pairwise
        (fun a b => a.zoom_level < b.zoom_level) :=
    List.pairwise_reverse.mpr (fallbackLoop_zoom_strict_desc cache _ _ _)
  refine ⟨h1, ?_⟩
  exact (List.pairwise_map).mpr (h1.imp (fun h => h))


/-- The entry substituted for `e` after `k` rounds of the fallback loop, with the
displayed size doubling each round. -/
def iterParentEntry : ℕ → ℚ × ℚ → TileEntry → TileEntry
  | 0, _, e => e
  | k + 1, size, e => iterParentEntry k (2 * size.1, 2 * size.2) (parentEntry size e)

theorem parentEntry_tx (size : ℚ × ℚ) (e : TileEntry) : (parentEntry size e).tx = e.tx / 2 := rfl

theorem parentEntry_ty (size : ℚ × ℚ) (e : TileEntry) : (parentEntry size e).ty = e.ty / 2 := rfl

theorem iterParentEntry_coords :
    ∀ (k : ℕ) (size : ℚ × ℚ) (e : TileEntry),
      (iterParentEntry k size e).tx = e.tx / 2 ^ k ∧
      (iterParentEntry k size e).ty = e.ty / 2 ^ k := by
  intro k
  induction k with
  | zero => intro size e; simp [iterParentEntry]
  | succ n ih =>
    intro size e
    have h := ih (2 * size.1, 2 * size.2) (parentEntry size e)
    simp only [iterParentEntry, h.1, h.2, parentEntry_tx, parentEntry_ty]
    constructor <;> rw [Nat.div_div_eq_div_mul, ← pow_succ']

theorem iterParentEntry_rect :
    ∀ (k : ℕ) (size : ℚ × ℚ) (e : TileEntry) (p : ℚ × ℚ),
      0 ≤ size.1 → 0 ≤ size.2 → inRect size e.px e.py p →
      inRect (2 ^ k * size.1, 2 ^ k * size.2)
        (iterParentEntry k size e).px (iterParentEntry k size e).py p := by
  intro k
  induction k with
  | zero =>
    intro size e p hx hy hp
    simpa [iterParentEntry] using hp
  | succ n ih =>
    intro size e p hx hy hp
    have hstep := parentEntry_rect hx hy hp
    have hres := ih (2 * size.1, 2 * size.2) (parentEntry size e) p
      (by positivity) (by positivity) hstep
    have hsz : ((2 : ℚ) ^ (n + 1) * size.1, (2 : ℚ) ^ (n + 1) * size.2) =
        (2 ^ n * (2 * size.1, 2 * size.2).1, 2 ^ n * (2 * size.1, 2 * size.2).2) := by
      simp only [Prod.mk.injEq]
      constructor <;> ring
    rw [iterParentEntry, hsz]
    exact hres

theorem fallbackLoop_resolves (cache : Cache) :
    ∀ (k z : ℕ) (missing : RenderLayer) (size : ℚ × ℚ) (e : TileEntry),
      missing.zoom_level = z →
      e ∈ missing.tiles →
      k < z →
      getTile cache (TileId.new (e.tx / 2 ^ k) (e.ty / 2 ^ k) (z - k)) = true →
      (∀ j < k, getTile cache (TileId.new (e.tx / 2 ^ j) (e.ty / 2 ^ j) (z - j)) = false) →
      ∃ L ∈ fallbackLoop cache z missing size,
        L.zoom_level = z - k ∧ L.size = (2 ^ k * size.1, 2 ^ k * size.2) ∧
        iterParentEntry k size e ∈ L.tiles := by
  intro k
  induction k with
  | zero =>
    intro z missing size e hzoom he hk hres _
    obtain ⟨n, rfl⟩ : ∃ n, z = n + 1 := ⟨z - 1, by omega⟩
    have hne : missing.tiles.isEmpty = false := by
      have h := List.ne_nil_of_mem he
      simp [List.isEmpty_iff, h]
    refine ⟨(layerStep cache size (n + 1) missing).1, ?_, ?_, ?_, ?_⟩
    · rw [fallbackLoop, hne]
      simp
    · simp [layerStep]
    · simp [layerStep]
    · simp only [iterParentEntry, layerStep, List.mem_filter]
      refine ⟨he, ?_⟩
      rw [hzoom]
      simpa using hres
  | succ n ih =>
    intro z missing size e hzoom he hk hres hmin
    obtain ⟨m, rfl⟩ : ∃ m, z = m + 1 := ⟨z - 1, by omega⟩
    have hne : missing.tiles.isEmpty = false := by
      have h := List.ne_nil_of_mem he
      simp [List.isEmpty_iff, h]
    have hnotnow : getTile cache (TileId.new e.tx e.ty (m + 1)) = false := by
      have := hmin 0 (Nat.succ_pos n)
      simpa using this
    have hmem : parentEntry size e ∈ (layerStep cache size (m + 1) missing).2.tiles := by
      simp only [layerStep, List.mem_map]
      refine ⟨e, ?_, rfl⟩
      rw [List.mem_filter, hzoom]
      exact ⟨he, by simp [hnotnow]⟩
    have hres2 : getTile cache (TileId.new ((parentEntry size e).tx / 2 ^ n)
        ((parentEntry size e).ty / 2 ^ n) (m - n)) = true := by
      have htx : (parentEntry size e).tx / 2 ^ n = e.tx / 2 ^ (n + 1) := by
        rw [parentEntry_tx, Nat.div_div_eq_div_mul, ← pow_succ']
      have hty : (parentEntry size e).ty / 2 ^ n = e.ty / 2 ^ (n + 1) := by
        rw [parentEntry_ty, Nat.div_div_eq_div_mul, ← pow_succ']
      rw [htx, hty]
      have : m - n = m + 1 - (n + 1) := by omega
      rw [this]
      exact hres
    have hmin2 : ∀ j < n, getTile cache (TileId.new ((parentEntry size e).tx / 2 ^ j)
        ((parentEntry size e).ty / 2 ^ j) (m - j)) = false := by
      intro j hj
      have htx : (parentEntry size e).tx / 2 ^ j = e.tx / 2 ^ (j + 1) := by
        rw [parentEntry_tx, Nat.div_div_eq_div_mul, ← pow_succ']
      have hty : (parentEntry size e).ty / 2 ^ j = e.ty / 2 ^ (j + 1) := by
        rw [parentEntry_ty, Nat.div_div_eq_div_mul, ← pow_succ']
      rw [htx, hty]
      have : m - j = m + 1 - (j + 1) := by omega
      rw [this]
      exact hmin (j + 1) (by omega)
    obtain ⟨L, hL, hLz, hLs, hLm⟩ := ih m (layerStep cache size (m + 1) missing).2
      (2 * size.1, 2 * size.2) (parentEntry size e) (by simp [layerStep]) hmem
      (by omega) hres2 hmin2
    refine ⟨L, ?_, ?_, ?_, ?_⟩
    · rw [fallbackLoop, hne]
      simp only [Bool.false_eq_true, if_false, List.mem_cons]
      right
      exact hL
    · rw [hLz]; omega
    · rw [hLs]
      simp only [Prod.mk.injEq]
      constructor <;> ring
    · simpa [iterParentEntry] using hLm


/-- Claim C2 (amended): the union of the emitted layers' footprints need not equal the
requested footprint and duplicates can occur (see the counterexample); what holds is
coverage of the resolvable tiles: every requested tile that is cached — or has a
cached ancestor — at some zoom level in [1, Z], is covered by the layer emitted at the
first such level, which contains that ancestor (coordinates divided by 2^k) with a
screen footprint containing the requested tile's whole screen cell. -/
theorem render_tile_set_covers_resolvable (cache : Cache) (ts : ℚ × ℚ)
    (tiles : List (ℕ × ℕ)) (tilesVertically : ℕ) (offset size : ℚ × ℚ) (winW winH : ℚ)
    (Z : ℕ) (layers : List RenderLayer)
    (hrender : render_tile_set cache (some ts) tiles tilesVertically offset size winW winH Z =
      some layers)
    (e : TileEntry) (he : e ∈ (initialLayer tiles tilesVertically offset size winW winH Z).tiles)
    (k : ℕ) (hk : k < Z)
    (hres : getTile cache (TileId.new (e.tx / 2 ^ k) (e.ty / 2 ^ k) (Z - k)) = true)
    (hmin : ∀ j < k, getTile cache (TileId.new (e.tx / 2 ^ j) (e.ty / 2 ^ j) (Z - j)) = false)
    (hsx : 0 ≤ size.1) (hsy : 0 ≤ size.2) (p : ℚ × ℚ) (hp : inRect size e.px e.py p) :
    ∃ L ∈ layers, L.zoom_level = Z - k ∧
      ∃ e2 ∈ L.tiles, e2.tx = e.tx / 2 ^ k ∧ e2.ty = e.ty / 2 ^ k ∧
        inRect L.size e2.px e2.py p := by
  have hl : layers = (fallbackLoop cache Z
      (initialLayer tiles tilesVertically offset size winW winH Z) size).reverse := by
    simpa [render_tile_set] using hrender.symm
  subst hl
  obtain ⟨L, hL, hLz, hLs, hLm⟩ := fallbackLoop_resolves cache k Z
    (initialLayer tiles tilesVertically offset size winW winH Z) size e rfl he hk hres hmin
  refine ⟨L, List.mem_reverse.mpr hL, hLz, iterParentEntry k size e, hLm,
    (iterParentEntry_coords k size e).1, (iterParentEntry_coords k size e).2, ?_⟩
  rw [hLs]
  exact iterParentEntry_rect k size e p hsx hsy hp

theorem render_tile_set_covers_resolvable_witness :
    ∃ L ∈ [RenderLayer.mk (1, 1) 1 [TileEntry.mk (-(1 / 2)) (3 / 2) 0 0]],
      L.zoom_level = 1 - 0 ∧
      ∃ e2 ∈ L.tiles, e2.tx = 0 / 2 ^ 0 ∧ e2.ty = 0 / 2 ^ 0 ∧
        inRect L.size e2.px e2.py (-(1 / 2), 3 / 2) := by
  have h := render_tile_set_covers_resolvable [TileId.new 0 0 1] (256, 256) [(0, 0)] 1
    (0, 0) (1, 1) 2 2 1 [RenderLayer.mk (1, 1) 1 [TileEntry.mk (-(1 / 2)) (3 / 2) 0 0]]
    (by simp only [render_tile_set, fallbackLoop, layerStep, initialLayer, parentEntry, getTile,
          TileId.new, List.enum, List.filter, List.map, List.isEmpty, List.contains,
          List.reverse]
        norm_num)
    (TileEntry.mk (-(1 / 2)) (3 / 2) 0 0)
    (by simp only [initialLayer, List.enum, List.map, List.mem_singleton]
        norm_num)
    0 (by omega) (by rfl) (by omega)
    (by norm_num) (by norm_num) (-(1 / 2), 3 / 2) (by norm_num [inRect])
  exact h

/-- Claim C6: for each still-missing tile, the substituted ancestor has coordinates
(x/2, y/2), and, displayed at double size, its screen footprint contains the child's
whole screen cell, positioned in the quadrant given by (x%2, y%2): an even x keeps the
child left of the ancestor's centre, an odd x right of it; an even y keeps it above
(tile rows grow downward while screen y grows upward), an odd y below. -/
theorem parent_substitution_quadrant (size : ℚ × ℚ) (e : TileEntry)
    (hx : 0 ≤ size.1) (hy : 0 ≤ size.2) (p : ℚ × ℚ) (hp : inRect size e.px e.py p) :
    inRect (2 * size.1, 2 * size.2) (parentEntry size e).px (parentEntry size e).py p ∧
    (parentEntry size e).tx = e.tx / 2 ∧ (parentEntry size e).ty = e.ty / 2 ∧
    (e.tx % 2 = 0 → p.1 ≤ (parentEntry size e).px) ∧
    (e.tx % 2 = 1 → (parentEntry size e).px ≤ p.1) ∧
    (e.ty % 2 = 0 → (parentEntry size e).py ≤ p.2) ∧
    (e.ty % 2 = 1 → p.2 ≤ (parentEntry size e).py) := by
  obtain ⟨a, b, c, d⟩ := hp
  refine ⟨parentEntry_rect hx hy ⟨a, b, c, d⟩, rfl, rfl, ?_, ?_, ?_, ?_⟩ <;>
    · intro hmod
      simp only [parentEntry, hmod, Nat.cast_zero, Nat.cast_one]
      linarith

theorem parent_substitution_quadrant_witness :
    inRect (2 * (1, 1).1, 2 * (1, 1).2) (parentEntry (1, 1) (TileEntry.mk 0 0 1 1)).px
      (parentEntry (1, 1) (TileEntry.mk 0 0 1 1)).py (0, 0) ∧
    (parentEntry (1, 1) (TileEntry.mk 0 0 1 1)).px ≤ (0 : ℚ) ∧
    (0 : ℚ) ≤ (parentEntry (1, 1) (TileEntry.mk 0 0 1 1)).py := by
  have h := parent_substitution_quadrant (1, 1) (TileEntry.mk 0 0 1 1)
    (by norm_num) (by norm_num) (0, 0) (by norm_num [inRect])
  exact ⟨h.1, h.2.2.2.2.1 rfl, h.2.2.2.2.2.2 rfl⟩

theorem draw_layers_coarsest_first_witness :
    ([RenderLayer.mk (2, 2) 1 [TileEntry.mk 0 1 0 0, TileEntry.mk 0 1 0 0,
        TileEntry.mk 0 1 0 0, TileEntry.mk 0 1 0 0], RenderLayer.mk (1, 1) 2 []]).Pairwise
      (fun a b => a.zoom_level < b.zoom_level) ∧
    (drawnLayers [TileId.new 0 0 1]
      [RenderLayer.mk (2, 2) 1 [TileEntry.mk 0 1 0 0, TileEntry.mk 0 1 0 0,
        TileEntry.mk 0 1 0 0, TileEntry.mk 0 1 0 0], RenderLayer.mk (1, 1) 2 []]).Pairwise
      (fun a b => a.zoom_level < b.zoom_level) :=
  draw_layers_coarsest_first [TileId.new 0 0 1] (256, 256) [(0, 0), (0, 1), (1, 0), (1, 1)] 2
    (0, 0) (1, 1) 2 2 2 _
    (by simp only [render_tile_set, fallbackLoop, layerStep, initialLayer, parentEntry, getTile,
          TileId.new, List.enum, List.filter, List.map, List.isEmpty, List.contains,
          List.reverse]
        norm_num)



theorem firstSpacing_unfold (m : ℝ) :
    firstSpacing m [45, 15, 5, 2, 1] =
      if m > 45 * 2 then some 45
      else if m > 15 * 2 then some 15
      else if m > 5 * 2 then some 5
      else if m > 2 * 2 then some 2
      else if m > 1 * 2 then some 1
      else none := by
  simp only [firstSpacing]

/-- Claim C4: `line_distance_for_viewport_degrees` agrees with the spec's description —
first value d of {45,15,5,2,1} with mapped_range > d*2 where mapped_range is the
degree range scaled by 500/axis_px, otherwise the log10 fallback on ceil(power) and
the non-negative fractional part — and the two concrete examples hold:
spacing(0.1, 720px) = 5 and spacing(0.5, 720px) = 15. -/
theorem line_distance_follows_spec :
    (∀ r axis : ℝ, 0 < r → 0 < axis →
      line_distance_for_viewport_degrees r axis = lineDistanceSpec r axis) ∧
    line_distance_for_viewport_degrees 0.1 720 = 5 ∧
    line_distance_for_viewport_degrees 0.5 720 = 15 := by
  refine ⟨?_, ?_, ?_⟩
  · intro r axis hr hax
    simp only [line_distance_for_viewport_degrees, lineDistanceSpec, mappedRange, logFallback,
      firstSpacing_unfold, mul_div_assoc]
    split_ifs <;> rfl
  · have hm : mappedRange 0.1 720 = 12.5 := by unfold mappedRange; norm_num
    simp only [line_distance_for_viewport_degrees, hm]
    norm_num
  · have hm : mappedRange 0.5 720 = 62.5 := by unfold mappedRange; norm_num
    simp only [line_distance_for_viewport_degrees, hm]
    norm_num

theorem line_distance_follows_spec_witness :
    (0 : ℝ) < 0.1 ∧ (0 : ℝ) < 720 ∧
    line_distance_for_viewport_degrees 0.1 720 = lineDistanceSpec 0.1 720 :=
  ⟨by norm_num, by norm_num, line_distance_follows_spec.1 0.1 720 (by norm_num) (by norm_num)⟩


theorem logb_ten_bounds {x : ℝ} {n : ℤ} (hx : 0 < x)
    (hlow : (10 : ℝ) ^ n < x) (hhigh : x < (10 : ℝ) ^ (n + 1)) :
    ((n : ℤ) : ℝ) < Real.logb 10 x ∧ Real.logb 10 x < ((n : ℤ) : ℝ) + 1 := by
  constructor
  · rw [Real.lt_logb_iff_rpow_lt (by norm_num) hx, Real.rpow_intCast]
    exact hlow
  · have h : (((n : ℤ) : ℝ) + 1) = (((n + 1 : ℤ)) : ℝ) := by push_cast; ring
    rw [h, Real.logb_lt_iff_lt_rpow (by norm_num) hx, Real.rpow_intCast]
    exact hhigh

theorem logFallback_eval_005 : logFallback 0.1 = 0.05 := by
  have h05 : (0.1 : ℝ) / 2 = 0.05 := by norm_num
  have hx : (0 : ℝ) < 0.05 := by norm_num
  have hb := logb_ten_bounds (x := 0.05) (n := -2) hx (by norm_num) (by norm_num)
  have hb1 : (-2 : ℝ) < Real.logb 10 0.05 := by
    have := hb.1; push_cast at this; linarith
  have hb2 : Real.logb 10 0.05 < -1 := by
    have := hb.2; push_cast at this; linarith
  have hfloor : ⌊Real.logb 10 0.05⌋ = -2 :=
    Int.floor_eq_iff.mpr ⟨by push_cast; linarith, by push_cast; linarith⟩
  have hceil : ⌈Real.logb 10 0.05⌉ = -1 :=
    Int.ceil_eq_iff.mpr ⟨by push_cast; linarith, by push_cast; linarith⟩
  have hfract : Int.fract (Real.logb 10 0.05) = Real.logb 10 0.05 + 2 := by
    rw [← Int.self_sub_floor, hfloor]; push_cast; ring
  have hge : -(3 / 2) ≤ Real.logb 10 0.05 := by
    rw [Real.le_logb_iff_rpow_le (by norm_num) hx]
    have h1 : (10 : ℝ) ^ (-(3 / 2) : ℝ) = ((10 : ℝ) ^ (-3 : ℤ)) ^ ((1 : ℝ) / 2) := by
      rw [← Real.rpow_intCast 10 (-3), ← Real.rpow_mul (by norm_num)]
      norm_num
    rw [h1, show ((10 : ℝ) ^ (-3 : ℤ)) = 1 / 1000 by norm_num, ← Real.sqrt_eq_rpow]
    calc Real.sqrt (1 / 1000) ≤ Real.sqrt (0.05 ^ 2) := Real.sqrt_le_sqrt (by norm_num)
      _ = 0.05 := Real.sqrt_sq (by norm_num)
  simp only [logFallback, h05]
  rw [if_pos (by rw [hfract]; linarith)]
  rw [hceil]
  norm_num [zpow_neg]

theorem logFallback_eval_01 : logFallback 0.2 = 0.01 := by
  simp only [logFallback]
  rw [show (0.2 : ℝ) / 2 = (10 : ℝ)⁻¹ by norm_num, Real.logb_inv,
    Real.logb_self_eq_one (by norm_num),
    show (-(1 : ℝ)) = ((-1 : ℤ) : ℝ) by push_cast; ring]
  rw [Int.fract_intCast, Int.ceil_intCast]
  rw [if_neg (by norm_num), if_neg (by norm_num)]
  norm_num [zpow_neg]

/-- Claim C5 counterexample: spacing is NOT non-decreasing in the range for fixed axis:
at axis 90000 px, the range 0.1 (mapped_range 0.1) yields spacing 0.05 while the
larger range 0.2 (mapped_range 0.2, whose log10(mapped/2) is exactly the integer -1)
yields the smaller spacing 0.01. -/
theorem line_distance_not_monotone :
    (0.1 : ℝ) ≤ 0.2 ∧ (0 : ℝ) < 0.1 ∧ (0 : ℝ) < 90000 ∧
    ¬ (line_distance_for_viewport_degrees 0.1 90000 ≤
        line_distance_for_viewport_degrees 0.2 90000) := by
  have e1 : line_distance_for_viewport_degrees 0.1 90000 = 0.05 := by
    have hm : mappedRange 0.1 90000 = 0.1 := by unfold mappedRange; norm_num
    simp only [line_distance_for_viewport_degrees, hm]
    rw [if_neg (by norm_num), if_neg (by norm_num), if_neg (by norm_num), if_neg (by norm_num),
      if_neg (by norm_num)]
    exact logFallback_eval_005
  have e2 : line_distance_for_viewport_degrees 0.2 90000 = 0.01 := by
    have hm : mappedRange 0.2 90000 = 0.2 := by unfold mappedRange; norm_num
    simp only [line_distance_for_viewport_degrees, hm]
    rw [if_neg (by norm_num), if_neg (by norm_num), if_neg (by norm_num), if_neg (by norm_num),
      if_neg (by norm_num)]
    exact logFallback_eval_01
  refine ⟨by norm_num, by norm_num, by norm_num, ?_⟩
  rw [e1, e2]
  norm_num


theorem mappedRange_mono {axis r1 r2 : ℝ} (hax : 0 < axis) (h : r1 ≤ r2) :
    mappedRange r1 axis ≤ mappedRange r2 axis := by
  unfold mappedRange
  gcongr

theorem mappedRange_pos {axis r : ℝ} (hr : 0 < r) (hax : 0 < axis) :
    0 < mappedRange r axis := by
  unfold mappedRange
  positivity

theorem logFallback_bounds (m : ℝ) :
    0.1 * 10 ^ ⌈Real.logb 10 (m / 2)⌉ ≤ logFallback m ∧
    logFallback m ≤ 0.5 * 10 ^ ⌈Real.logb 10 (m / 2)⌉ := by
  have h10 : (0 : ℝ) < 10 ^ ⌈Real.logb 10 (m / 2)⌉ := zpow_pos (by norm_num) _
  simp only [logFallback]
  split_ifs <;> constructor <;> nlinarith

theorem logFallback_le_half {m : ℝ} (h0 : 0 < m) (h2 : m ≤ 2) : logFallback m ≤ 1 / 2 := by
  have hp : Real.logb 10 (m / 2) ≤ 0 :=
    Real.logb_nonpos (by norm_num) (by positivity) (by linarith)
  have hceil : ⌈Real.logb 10 (m / 2)⌉ ≤ 0 := Int.ceil_le.mpr (by exact_mod_cast hp)
  have hz : (10 : ℝ) ^ ⌈Real.logb 10 (m / 2)⌉ ≤ 1 := by
    calc (10 : ℝ) ^ ⌈Real.logb 10 (m / 2)⌉ ≤ 10 ^ (0 : ℤ) := zpow_le_zpow_right₀ (by norm_num) hceil
      _ = 1 := zpow_zero 10
  have h10 : (0 : ℝ) < 10 ^ ⌈Real.logb 10 (m / 2)⌉ := zpow_pos (by norm_num) _
  have hub := (logFallback_bounds m).2
  nlinarith

theorem logFallback_mono {m1 m2 : ℝ} (h1 : 0 < m1) (h12 : m1 ≤ m2)
    (hni : ∀ n : ℤ, Real.logb 10 (m2 / 2) ≠ (n : ℝ)) :
    logFallback m1 ≤ logFallback m2 := by
  have hm2 : 0 < m2 := lt_of_lt_of_le h1 h12
  have hp12 : Real.logb 10 (m1 / 2) ≤ Real.logb 10 (m2 / 2) :=
    Real.logb_le_logb_of_le (by norm_num) (by positivity) (by linarith)
  have he12 : ⌈Real.logb 10 (m1 / 2)⌉ ≤ ⌈Real.logb 10 (m2 / 2)⌉ := Int.ceil_mono hp12
  rcases lt_or_eq_of_le he12 with hlt | heq
  · have hv1 := (logFallback_bounds m1).2
    have hv2 := (logFallback_bounds m2).1
    have hz1 : (0 : ℝ) < 10 ^ ⌈Real.logb 10 (m1 / 2)⌉ := zpow_pos (by norm_num) _
    have hsucc : (10 : ℝ) ^ (⌈Real.logb 10 (m1 / 2)⌉ + 1) =
        10 ^ ⌈Real.logb 10 (m1 / 2)⌉ * 10 := zpow_add_one₀ (by norm_num) _
    have hle : (10 : ℝ) ^ (⌈Real.logb 10 (m1 / 2)⌉ + 1) ≤
        10 ^ ⌈Real.logb 10 (m2 / 2)⌉ := zpow_le_zpow_right₀ (by norm_num) (by omega)
    nlinarith
  · have hlt2 : Real.logb 10 (m2 / 2) < (⌈Real.logb 10 (m2 / 2)⌉ : ℝ) :=
      lt_of_le_of_ne (Int.le_ceil _) (hni _)
    have hgt2 : ((⌈Real.logb 10 (m2 / 2)⌉ : ℝ)) - 1 < Real.logb 10 (m2 / 2) :=
      (Int.ceil_eq_iff.mp rfl).1
    have hgt1 : ((⌈Real.logb 10 (m1 / 2)⌉ : ℝ)) - 1 < Real.logb 10 (m1 / 2) :=
      (Int.ceil_eq_iff.mp rfl).1
    have hlt1 : Real.logb 10 (m1 / 2) < (⌈Real.logb 10 (m2 / 2)⌉ : ℝ) :=
      lt_of_le_of_lt hp12 hlt2
    have hf1 : ⌊Real.logb 10 (m1 / 2)⌋ = ⌈Real.logb 10 (m2 / 2)⌉ - 1 :=
      Int.floor_eq_iff.mpr ⟨by push_cast; rw [heq] at hgt1; linarith, by push_cast; linarith⟩
    have hf2 : ⌊Real.logb 10 (m2 / 2)⌋ = ⌈Real.logb 10 (m2 / 2)⌉ - 1 :=
      Int.floor_eq_iff.mpr ⟨by push_cast; linarith, by push_cast; linarith⟩
    have hfr1 : Int.fract (Real.logb 10 (m1 / 2)) =
        Real.logb 10 (m1 / 2) - ((⌈Real.logb 10 (m2 / 2)⌉ : ℝ) - 1) := by
      rw [← Int.self_sub_floor, hf1]; push_cast; ring
    have hfr2 : Int.fract (Real.logb 10 (m2 / 2)) =
        Real.logb 10 (m2 / 2) - ((⌈Real.logb 10 (m2 / 2)⌉ : ℝ) - 1) := by
      rw [← Int.self_sub_floor, hf2]; push_cast; ring
    have hfle : Int.fract (Real.logb 10 (m1 / 2)) ≤ Int.fract (Real.logb 10 (m2 / 2)) := by
      rw [hfr1, hfr2]; linarith
    have hz2 : (0 : ℝ) < 10 ^ ⌈Real.logb 10 (m2 / 2)⌉ := zpow_pos (by norm_num) _
    simp only [logFallback]
    rw [heq]
    split_ifs <;> nlinarith

/-- Claim C5 (amended): for fixed positive axis the spacing is non-decreasing in the
range at every pair 0 < r1 ≤ r2 such that r2 does not sit exactly on a fallback
boundary — i.e. whenever r2's mapped_range exceeds 2 (discrete branch) or
log10(mapped_range/2) is not an exact integer.  At the boundary points themselves the
value dips, as the counterexample shows. -/
theorem line_distance_mono (axis r1 r2 : ℝ) (h1 : 0 < r1) (h12 : r1 ≤ r2) (hax : 0 < axis)
    (hnd : 2 < mappedRange r2 axis ∨
      ∀ n : ℤ, Real.logb 10 (mappedRange r2 axis / 2) ≠ (n : ℝ)) :
    line_distance_for_viewport_degrees r1 axis ≤ line_distance_for_viewport_degrees r2 axis := by
  have hm12 : mappedRange r1 axis ≤ mappedRange r2 axis := mappedRange_mono hax h12
  have hm1 : 0 < mappedRange r1 axis := mappedRange_pos h1 hax
  have hm2 : 0 < mappedRange r2 axis := lt_of_lt_of_le hm1 hm12
  simp only [line_distance_for_viewport_degrees]
  split_ifs <;>
    first
      | linarith
      | (have hhalf := logFallback_le_half hm1 (by linarith); linarith)
      | (rcases hnd with hnd | hnd
         · linarith
         · exact logFallback_mono hm1 hm12 hnd)

theorem line_distance_mono_witness :
    (0 : ℝ) < 0.1 ∧ (0.1 : ℝ) ≤ 0.1 ∧ (0 : ℝ) < 720 ∧ 2 < mappedRange 0.1 720 ∧
    line_distance_for_viewport_degrees 0.1 720 ≤ line_distance_for_viewport_degrees 0.1 720 :=
  ⟨by norm_num, le_refl _, by norm_num, by unfold mappedRange; norm_num,
   line_distance_mono 720 0.1 0.1 (by norm_num) (le_refl _) (by norm_num)
     (Or.inl (by unfold mappedRange; norm_num))⟩


end GatorGuide
